import Mathlib

/-!
Verification of the batch-execution harness: the three-phase lifecycle
coordinator `on_shell_call`, the bounded-concurrency worker pool
`execute_async`, the deterministic encoder `stable_json_stringify` /
`deep_clone_and_sort`, and the error classifier `ensure_error`.

The TypeScript sources are shallowly embedded: phase functions that may
throw are modelled as `Except String` valued functions whose error string
is the message produced by `ensure_error` on the thrown value; the
`Errorneous` tagged union mirrors the source type of the same name.
-/

/-- The source's `Errorneous<R>` union: `{is_error: false, value}` or
`{is_error: true, error}`. -/
inductive Errorneous (O : Type) where
  | ok (value : O)
  | err (error : String)
deriving DecidableEq, Repr

/-- The `inputs` field of the parsed invocation payload: either a JSON
array or some non-array value (the harness only tests `Array.isArray`). -/
inductive InputsVal (V : Type) where
  | arr (xs : List V)
  | notArr
deriving DecidableEq, Repr

/-- The parsed invocation payload: fields `before`, `inputs`, `after` of
`JSON.parse(Deno.args[0])`. Payload values are opaque to the harness. -/
structure ShellData (V : Type) where
  before : V
  inputs : InputsVal V
  after : V
deriving DecidableEq, Repr

/-- Observable outcome of one `on_shell_call` run: `fatal` is the message
of an uncaught failure (assertion or JSON parse error) if one occurred,
`emitted` is the Result Sequence written to stdout after the
`shell_call_json_output:` token (`none` when the run died fatally),
`before_calls` / `after_calls` count invocations of the respective phase
functions, and `process_trace` lists the inputs passed to `process`, in
call order. -/
structure ShellRun (V O : Type) where
  fatal : Option String
  emitted : Option (List (Errorneous O))
  before_calls : Nat
  process_trace : List V
  after_calls : Nat
deriving DecidableEq, Repr

/-- Shallow embedding of `on_shell_call` (src/unnamed/part_000).
`parse` models `JSON.parse` (`none` = parse throws). The steps mirror the
source order: argument-count assert, parse, `before` phase (caught),
`Array.isArray(data.inputs)` assert, the per-item loop (each item caught),
the `after` phase (caught, replacing all results on failure), emission. -/
def on_shell_call {V B O : Type} (before : V → Except String B)
    (process : B → V → Except String O)
    (after : Option B → V → Except String Unit)
    (parse : String → Option (ShellData V)) (args : List String) : ShellRun V O :=
  match args with
  | [arg] =>
    match parse arg with
    | none => ⟨some "JSON parse error", none, 0, [], 0⟩
    | some data =>
      let before_output : Errorneous B :=
        match before data.before with
        | .ok v => .ok v
        | .error e => .err e
      match data.inputs with
      | .notArr => ⟨some "inputs should be an array", none, 1, [], 0⟩
      | .arr inputs =>
        let step34 : List (Errorneous O) × List V :=
          match before_output with
          | .err m => (inputs.map (fun _ => .err m), [])
          | .ok b =>
            (inputs.map (fun input =>
              match process b input with
              | .ok v => .ok v
              | .error m => .err m), inputs)
        let after_arg : Option B :=
          match before_output with
          | .ok b => some b
          | .err _ => none
        let results : List (Errorneous O) :=
          match after after_arg data.after with
          | .ok _ => step34.1
          | .error m2 => inputs.map (fun _ => .err m2)
        ⟨none, some results, 1, step34.2, 1⟩
  | _ => ⟨some "only one argument expected", none, 0, [], 0⟩

example :
    (on_shell_call (V := Int) (B := Int) (O := Int)
      (fun b => .ok b) (fun _ i => .ok (2 * i)) (fun _ _ => .ok ())
      (fun _ => some ⟨0, .arr [1, 2, 3], 0⟩) ["x"]).emitted =
      some [.ok 2, .ok 4, .ok 6] := by decide

/-- Helper: on a well-formed invocation, the run's `emitted` field is
`some` of a list computed from the phase outcomes, of the same length as
`inputs` in every branch. -/
lemma shell_emitted_cases {V B O : Type} (before : V → Except String B)
    (process : B → V → Except String O)
    (after : Option B → V → Except String Unit)
    (parse : String → Option (ShellData V)) (a : String) (data : ShellData V)
    (inputs : List V) (h1 : parse a = some data) (h2 : data.inputs = .arr inputs) :
    ∃ rs, (on_shell_call before process after parse [a]).emitted = some rs ∧
      rs.length = inputs.length := by
  simp only [on_shell_call, h1, h2]
  cases hb : before data.before with
  | ok b =>
    cases ha : after (some b) data.after with
    | ok u => exact ⟨_, rfl, by simp⟩
    | error m2 => exact ⟨_, rfl, by simp⟩
  | error m =>
    cases ha : after none data.after with
    | ok u => exact ⟨_, rfl, by simp⟩
    | error m2 => exact ⟨_, rfl, by simp⟩

/-- C1: for every well-formed invocation (exactly one argument, parsing to
a payload whose `inputs` is an array), the emitted Result Sequence has the
same length as `inputs`, whatever the three phase functions do. -/
theorem C1_result_sequence_length {V B O : Type} (before : V → Except String B)
    (process : B → V → Except String O)
    (after : Option B → V → Except String Unit)
    (parse : String → Option (ShellData V)) (a : String) (data : ShellData V)
    (inputs : List V) (h1 : parse a = some data) (h2 : data.inputs = .arr inputs) :
    ∃ rs, (on_shell_call before process after parse [a]).emitted = some rs ∧
      rs.length = inputs.length :=
  shell_emitted_cases before process after parse a data inputs h1 h2

/-- Witness for C1 at a concrete invocation: `before` fails, `process`
fails on one item of three, `after` fails — the output still has three
entries. -/
theorem C1_result_sequence_length_witness :
    ∃ rs, (on_shell_call (V := Int) (B := Int) (O := Int)
      (fun _ => .error "boom")
      (fun _ i => if i = 2 then .error "bad item" else .ok (2 * i))
      (fun _ _ => .error "teardown fail")
      (fun _ => some ⟨0, .arr [1, 2, 3], 0⟩) ["x"]).emitted = some rs ∧
      rs.length = ([1, 2, 3] : List Int).length :=
  C1_result_sequence_length _ _ _ _ "x" ⟨0, .arr [1, 2, 3], 0⟩ [1, 2, 3] rfl rfl

/-- Counterexample to C2 as stated: `before` throws `"boom"`, but `after`
also throws `"teardown fail"`; the emitted entries carry the after-phase
message, not `"boom"`. -/
theorem C2_before_error_counterexample :
    (on_shell_call (V := Int) (B := Int) (O := Int)
      (fun _ => .error "boom") (fun _ i => .ok i)
      (fun _ _ => .error "teardown fail")
      (fun _ => some ⟨0, .arr [7], 0⟩) ["x"]).emitted =
        some [Errorneous.err "teardown fail"] ∧
    (on_shell_call (V := Int) (B := Int) (O := Int)
      (fun _ => .error "boom") (fun _ i => .ok i)
      (fun _ _ => .error "teardown fail")
      (fun _ => some ⟨0, .arr [7], 0⟩) ["x"]).emitted ≠
        some [Errorneous.err "boom"] := by decide

/-- C2 (amended): on a well-formed invocation where `before` throws with
message `m`, `process` is never invoked; and provided the `after` phase
does not also throw, every emitted entry is `Err{m}` (all entries carry
the identical error text). -/
theorem C2_before_error_uniform {V B O : Type} (before : V → Except String B)
    (process : B → V → Except String O)
    (after : Option B → V → Except String Unit)
    (parse : String → Option (ShellData V)) (a : String) (data : ShellData V)
    (inputs : List V) (m : String)
    (h1 : parse a = some data) (h2 : data.inputs = .arr inputs)
    (hb : before data.before = .error m) :
    (on_shell_call before process after parse [a]).process_trace = [] ∧
    (after none data.after = .ok () →
      (on_shell_call before process after parse [a]).emitted =
        some (inputs.map fun _ => .err m)) := by
  constructor
  · simp only [on_shell_call, h1, h2, hb]
  · intro ha
    simp only [on_shell_call, h1, h2, hb, ha]

/-- Witness for C2 (amended): `before` throws `"boom"`, `after` succeeds,
three inputs: `process` sees no input and all entries are `Err{"boom"}`. -/
theorem C2_before_error_uniform_witness :
    (on_shell_call (V := Int) (B := Int) (O := Int)
      (fun _ => .error "boom") (fun _ i => .ok i) (fun _ _ => .ok ())
      (fun _ => some ⟨0, .arr [1, 2, 3], 0⟩) ["x"]).process_trace = [] ∧
    ((fun (_ : Option Int) (_ : Int) => (Except.ok () : Except String Unit)) none 0 = .ok () →
      (on_shell_call (V := Int) (B := Int) (O := Int)
        (fun _ => .error "boom") (fun _ i => .ok i) (fun _ _ => .ok ())
        (fun _ => some ⟨0, .arr [1, 2, 3], 0⟩) ["x"]).emitted =
          some (([1, 2, 3] : List Int).map fun _ => .err "boom")) :=
  C2_before_error_uniform _ _ _ _ "x" ⟨0, .arr [1, 2, 3], 0⟩ [1, 2, 3] "boom" rfl rfl rfl

/-- C3: `before` and `after` succeed and `process` throws (message `m`)
exactly at index `k`: the output is `Ok` at every other index, `Err{m}` at
`k`, and `process` is invoked once per input, in input order (including
the items after `k`). -/
theorem C3_process_failure_isolated {V B O : Type} (before : V → Except String B)
    (process : B → V → Except String O)
    (after : Option B → V → Except String Unit)
    (parse : String → Option (ShellData V)) (a : String) (data : ShellData V)
    (inputs : List V) (b : B) (k : Nat) (inpk : V) (m : String)
    (h1 : parse a = some data) (h2 : data.inputs = .arr inputs)
    (hb : before data.before = .ok b)
    (ha : after (some b) data.after = .ok ())
    (hk : inputs.get? k = some inpk)
    (hm : process b inpk = .error m)
    (hok : ∀ j inp, j ≠ k → inputs.get? j = some inp → ∃ v, process b inp = .ok v) :
    ∃ rs, (on_shell_call before process after parse [a]).emitted = some rs ∧
      rs.length = inputs.length ∧
      rs.get? k = some (.err m) ∧
      (∀ j inp, j ≠ k → inputs.get? j = some inp →
        ∃ v, process b inp = .ok v ∧ rs.get? j = some (.ok v)) ∧
      (on_shell_call before process after parse [a]).process_trace = inputs := by
  simp only [on_shell_call, h1, h2, hb, ha]
  refine ⟨_, rfl, by simp, ?_, ?_, trivial⟩
  · rw [List.get?_map, hk]
    simp [hm]
  · intro j inp hj hget
    obtain ⟨v, hv⟩ := hok j inp hj hget
    refine ⟨v, hv, ?_⟩
    rw [List.get?_map, hget]
    simp [hv]

/-- Witness for C3: three inputs, `process` fails only on the middle one;
output is `[Ok 2, Err "bad item", Ok 6]` and all three items were
processed in order. -/
theorem C3_process_failure_isolated_witness :
    ∃ rs, (on_shell_call (V := Int) (B := Int) (O := Int)
      (fun _ => .ok 0)
      (fun _ i => if i = 2 then .error "bad item" else .ok (2 * i))
      (fun _ _ => .ok ())
      (fun _ => some ⟨0, .arr [1, 2, 3], 0⟩) ["x"]).emitted = some rs ∧
      rs.length = ([1, 2, 3] : List Int).length ∧
      rs.get? 1 = some (.err "bad item") ∧
      (∀ j inp, j ≠ 1 → ([1, 2, 3] : List Int).get? j = some inp →
        ∃ v, (if inp = 2 then (.error "bad item" : Except String Int) else .ok (2 * inp)) = .ok v ∧
          rs.get? j = some (.ok v)) ∧
      (on_shell_call (V := Int) (B := Int) (O := Int)
        (fun _ => .ok 0)
        (fun _ i => if i = 2 then .error "bad item" else .ok (2 * i))
        (fun _ _ => .ok ())
        (fun _ => some ⟨0, .arr [1, 2, 3], 0⟩) ["x"]).process_trace = [1, 2, 3] :=
  C3_process_failure_isolated _ _ _ _ "x" ⟨0, .arr [1, 2, 3], 0⟩ [1, 2, 3] 0 1 2
    "bad item" rfl rfl rfl rfl rfl rfl
    (by
      intro j inp hj hget
      match j, hj, hget with
      | 0, _, hget =>
        have hi : inp = 1 := by simpa using hget.symm
        subst hi
        exact ⟨2, by norm_num⟩
      | 1, hj, _ => exact absurd rfl hj
      | 2, _, hget =>
        have hi : inp = 3 := by simpa using hget.symm
        subst hi
        exact ⟨6, by norm_num⟩
      | (n + 3), _, hget => simp at hget)

/-- The argument the coordinator passes to the `after` phase, as on line
38 of the source: `before_output.is_error ? undefined : before_output.value`. -/
def shell_after_arg {V B : Type} (before : V → Except String B)
    (data : ShellData V) : Option B :=
  match before data.before with
  | .ok b => some b
  | .error _ => none

/-- C4: on every well-formed invocation the `after` phase is invoked
exactly once, and if the one `after` call the coordinator makes — on the
actual before-output (or `undefined` if `before` failed) — throws with
message `m2`, then every emitted entry is `Err{m2}`, discarding all prior
outcomes. -/
theorem C4_after_phase_override {V B O : Type} (before : V → Except String B)
    (process : B → V → Except String O)
    (after : Option B → V → Except String Unit)
    (parse : String → Option (ShellData V)) (a : String) (data : ShellData V)
    (inputs : List V) (h1 : parse a = some data) (h2 : data.inputs = .arr inputs) :
    (on_shell_call before process after parse [a]).after_calls = 1 ∧
    ∀ m2, after (shell_after_arg before data) data.after = .error m2 →
      (on_shell_call before process after parse [a]).emitted =
        some (inputs.map fun _ => .err m2) := by
  constructor
  · simp [on_shell_call, h1, h2]
  · intro m2 ha
    unfold shell_after_arg at ha
    simp only [on_shell_call, h1, h2]
    cases hb : before data.before with
    | ok b =>
      rw [hb] at ha
      simp [ha]
    | error m =>
      rw [hb] at ha
      simp [ha]

/-- Witness for C4: `before` and `process` succeed, and `after` throws
only on its actual argument `some 0` (it would succeed on `undefined`);
all three entries are overridden. -/
theorem C4_after_phase_override_witness :
    (on_shell_call (V := Int) (B := Int) (O := Int)
      (fun _ => .ok 0) (fun _ i => .ok (2 * i))
      (fun ob _ => match ob with
        | some _ => .error "teardown fail"
        | none => .ok ())
      (fun _ => some ⟨0, .arr [1, 2, 3], 0⟩) ["x"]).after_calls = 1 ∧
    ∀ m2, (fun (ob : Option Int) (_ : Int) =>
        match ob with
        | some _ => (.error "teardown fail" : Except String Unit)
        | none => .ok ())
        (shell_after_arg (fun _ => (.ok 0 : Except String Int)) ⟨0, .arr [1, 2, 3], 0⟩)
          (0 : Int) = .error m2 →
      (on_shell_call (V := Int) (B := Int) (O := Int)
        (fun _ => .ok 0) (fun _ i => .ok (2 * i))
        (fun ob _ => match ob with
          | some _ => .error "teardown fail"
          | none => .ok ())
        (fun _ => some ⟨0, .arr [1, 2, 3], 0⟩) ["x"]).emitted =
          some (([1, 2, 3] : List Int).map fun _ => .err m2) :=
  C4_after_phase_override _ _ _ _ "x" ⟨0, .arr [1, 2, 3], 0⟩ [1, 2, 3] rfl rfl

/-- Counterexample to C5 as stated: with a payload whose `inputs` is not
an array, the run does fail fatally with no output, but `before` has
already been invoked once — the array check happens after the before
phase, so "the before function is never invoked" is false. -/
theorem C5_validation_counterexample :
    (on_shell_call (V := Int) (B := Int) (O := Int)
      (fun _ => .ok 0) (fun _ i => .ok i) (fun _ _ => .ok ())
      (fun _ => some ⟨0, .notArr, 0⟩) ["x"]).fatal = some "inputs should be an array" ∧
    (on_shell_call (V := Int) (B := Int) (O := Int)
      (fun _ => .ok 0) (fun _ i => .ok i) (fun _ _ => .ok ())
      (fun _ => some ⟨0, .notArr, 0⟩) ["x"]).emitted = none ∧
    (on_shell_call (V := Int) (B := Int) (O := Int)
      (fun _ => .ok 0) (fun _ i => .ok i) (fun _ _ => .ok ())
      (fun _ => some ⟨0, .notArr, 0⟩) ["x"]).before_calls = 1 := by decide

/-- C5 (amended): argument-count and JSON checks do precede everything,
but the `inputs`-is-an-array check runs only after the before phase: on a
payload whose `inputs` is not an array the call fails fatally (uncaught),
no output is written, `process` and `after` are never invoked — yet
`before` has already been invoked exactly once. -/
theorem C5_inputs_check_after_before_phase {V B O : Type}
    (before : V → Except String B) (process : B → V → Except String O)
    (after : Option B → V → Except String Unit)
    (parse : String → Option (ShellData V)) (a : String) (data : ShellData V)
    (h1 : parse a = some data) (h2 : data.inputs = .notArr) :
    (on_shell_call before process after parse [a]).fatal =
      some "inputs should be an array" ∧
    (on_shell_call before process after parse [a]).emitted = none ∧
    (on_shell_call before process after parse [a]).before_calls = 1 ∧
    (on_shell_call before process after parse [a]).process_trace = [] ∧
    (on_shell_call before process after parse [a]).after_calls = 0 := by
  simp [on_shell_call, h1, h2]

/-- Witness for C5 (amended) at a concrete malformed payload. -/
theorem C5_inputs_check_after_before_phase_witness :
    (on_shell_call (V := Int) (B := Int) (O := Int)
      (fun _ => .ok 0) (fun _ i => .ok i) (fun _ _ => .ok ())
      (fun _ => some ⟨0, .notArr, 0⟩) ["x"]).fatal =
        some "inputs should be an array" ∧
    (on_shell_call (V := Int) (B := Int) (O := Int)
      (fun _ => .ok 0) (fun _ i => .ok i) (fun _ _ => .ok ())
      (fun _ => some ⟨0, .notArr, 0⟩) ["x"]).emitted = none ∧
    (on_shell_call (V := Int) (B := Int) (O := Int)
      (fun _ => .ok 0) (fun _ i => .ok i) (fun _ _ => .ok ())
      (fun _ => some ⟨0, .notArr, 0⟩) ["x"]).before_calls = 1 ∧
    (on_shell_call (V := Int) (B := Int) (O := Int)
      (fun _ => .ok 0) (fun _ i => .ok i) (fun _ _ => .ok ())
      (fun _ => some ⟨0, .notArr, 0⟩) ["x"]).process_trace = [] ∧
    (on_shell_call (V := Int) (B := Int) (O := Int)
      (fun _ => .ok 0) (fun _ i => .ok i) (fun _ _ => .ok ())
      (fun _ => some ⟨0, .notArr, 0⟩) ["x"]).after_calls = 0 :=
  C5_inputs_check_after_before_phase _ _ _ _ "x" ⟨0, .notArr, 0⟩ rfl rfl

/-!
The bounded-concurrency worker pool `execute_async` (src/unnamed/part_001).

The pool runs on a single-threaded cooperative scheduler; the only
suspension point in a worker's loop is `await process(task)`, so claiming
an index (`const task_i = i++`) is atomic, and a resumed worker stores its
result and immediately claims the next index (or exits). We embed this as
a small-step system: a worker is `waiting k` (its `process` call for index
`k` is in flight), `done` (its loop exited), or `failed msg` (its
`process` call rejected, rejecting the worker's promise). A schedule — a
list of worker indices — picks which in-flight call resolves next; the
final outcome is proved for every schedule that drives the pool to
completion, which captures that completion order is unconstrained.
-/

/-- State of one worker of `execute_async`. -/
inductive WorkerSt (R : Type) where
  | waiting (k : Nat)
  | done
  | failed (msg : String)
deriving DecidableEq, Repr

/-- Shared state of one `execute_async` call: the shared cursor `i`, the
`results` map keyed by task index (`none` = key absent, i.e. `undefined`),
the workers' states in spawn order, and a counter of `process`
invocations. -/
structure PoolSt (R : Type) where
  cursor : Nat
  results : Nat → Option R
  workers : List (WorkerSt R)
  calls : Nat

/-- One pass of the worker loop head: `while (i < tasks.length) { const
task_i = i++; ... await process(tasks[task_i]) }`. Claims the current
cursor and starts `process` (counted in `calls`), or exits the loop. -/
def claim_index {T R : Type} (tasks : List T) (s : PoolSt R) : WorkerSt R × PoolSt R :=
  if s.cursor < tasks.length then
    (.waiting s.cursor, { s with cursor := s.cursor + 1, calls := s.calls + 1 })
  else (.done, s)

/-- `for (let i = 0; i < workers_count; i++) promises.push(worker())`:
each `worker()` call runs synchronously up to its first `await`, claiming
one index (or exiting immediately when the cursor is exhausted). -/
def spawn_workers {T R : Type} (tasks : List T) : Nat → PoolSt R → PoolSt R
  | 0, s => s
  | n + 1, s =>
    let ws := claim_index tasks s
    spawn_workers tasks n { ws.2 with workers := ws.2.workers ++ [ws.1] }

/-- Pool state of `execute_async tasks process workers_count` after the
spawn loop, before any `process` call resolves. -/
def init_pool {T R : Type} (tasks : List T) (workers_count : Nat) : PoolSt R :=
  spawn_workers tasks workers_count ⟨0, fun _ => none, [], 0⟩

/-- Resolve the in-flight `process` call of worker `w` (a no-op if `w` is
not an in-flight worker): on success the worker stores
`results[task_i] = v` and loops — claiming the next index or exiting; on
failure the worker's promise rejects. -/
def pool_step {T R : Type} (tasks : List T) (process : T → Except String R)
    (s : PoolSt R) (w : Nat) : PoolSt R :=
  match s.workers.get? w with
  | some (.waiting k) =>
    match tasks.get? k with
    | some t =>
      match process t with
      | .ok v =>
        let s1 : PoolSt R := { s with results := fun j => if j = k then some v else s.results j }
        let ws := claim_index tasks s1
        { ws.2 with workers := ws.2.workers.set w ws.1 }
      | .error msg => { s with workers := s.workers.set w (.failed msg) }
    | none => { s with workers := s.workers.set w .done }
  | _ => s

/-- Run the pool under a schedule: the cooperative scheduler resolves
in-flight calls in the order given by `schedule`. -/
def pool_run {T R : Type} (tasks : List T) (process : T → Except String R)
    (s : PoolSt R) (schedule : List Nat) : PoolSt R :=
  schedule.foldl (pool_step tasks process) s

/-- All worker promises are settled: no `process` call is in flight. -/
def pool_finished {R : Type} (s : PoolSt R) : Bool :=
  s.workers.all fun w =>
    match w with
    | .waiting _ => false
    | _ => true

/-- `for (const promise of promises) await promise`: the first rejected
promise, in spawn order, rethrows its error. -/
def first_failure {R : Type} : List (WorkerSt R) → Option String
  | [] => none
  | .failed msg :: _ => some msg
  | _ :: ws => first_failure ws

/-- Shallow embedding of `execute_async` (src/unnamed/part_001): run the
pool to the end of the given schedule; rethrow the first worker failure,
else return `map(tasks, (_v, i) => results[i])` — index-aligned
reassembly, `none` standing for a missing key (`undefined`). -/
def execute_async {T R : Type} (tasks : List T) (process : T → Except String R)
    (workers_count : Nat) (schedule : List Nat) : Except String (List (Option R)) :=
  let s := pool_run tasks process (init_pool tasks workers_count) schedule
  match first_failure s.workers with
  | some msg => .error msg
  | none => .ok ((List.range tasks.length).map s.results)

example :
    execute_async [1, 2, 3, 4, 5] (fun x => .ok (x * x)) 2 [1, 0, 1, 0, 1] =
      .ok [some 1, some 4, some 9, some 16, some 25] := rfl

/-- Inductive invariant of the pool state, preserved by spawning and by
every scheduler step. -/
structure PoolInv {T R : Type} (tasks : List T) (process : T → Except String R)
    (s : PoolSt R) : Prop where
  cursor_le : s.cursor ≤ tasks.length
  results_ok : ∀ k v, s.results k = some v →
    ∃ t, tasks.get? k = some t ∧ process t = .ok v
  claimed_covered : ∀ k, k < s.cursor →
    (s.results k).isSome = true ∨ WorkerSt.waiting k ∈ s.workers ∨
      ∃ msg, WorkerSt.failed msg ∈ s.workers
  done_cursor : WorkerSt.done (R := R) ∈ s.workers → s.cursor = tasks.length
  failed_origin : ∀ msg, WorkerSt.failed msg ∈ s.workers →
    ∃ k t, tasks.get? k = some t ∧ process t = .error msg
  waiting_lt : ∀ k, WorkerSt.waiting k ∈ s.workers → k < s.cursor

/-- An element of a list stays in the list after `set` at a position that
does not hold it. -/
lemma mem_set_of_get?_ne {α : Type} {l : List α} {x : α} (y : α) {w : Nat}
    (hx : x ∈ l) (hne : l.get? w ≠ some x) : x ∈ l.set w y := by
  induction l generalizing w with
  | nil => cases hx
  | cons a t ih =>
    cases w with
    | zero =>
      rcases List.mem_cons.mp hx with h | h
      · exact absurd (by simp [h]) hne
      · simp [List.set, h]
    | succ w =>
      rcases List.mem_cons.mp hx with h | h
      · simp [List.set, h]
      · simpa [List.set] using Or.inr (ih h (by simpa using hne))

/-- The element written by `set` is in the result when the position is in
range. -/
lemma mem_set_self {α : Type} {l : List α} {w : Nat} (hw : w < l.length) (y : α) :
    y ∈ l.set w y := by
  induction l generalizing w with
  | nil => simp at hw
  | cons a t ih =>
    cases w with
    | zero => simp [List.set]
    | succ w => simpa [List.set] using Or.inr (ih (by simpa using hw))

/-- Claiming during the spawn loop does not touch the workers list. -/
lemma claim_index_workers {T R : Type} (tasks : List T) (s : PoolSt R) :
    (claim_index tasks s).2.workers = s.workers := by
  unfold claim_index
  split <;> rfl

/-- The spawn loop preserves the pool invariant. -/
lemma spawn_workers_inv {T R : Type} (tasks : List T) (process : T → Except String R) :
    ∀ (n : Nat) (s : PoolSt R), PoolInv tasks process s →
      PoolInv tasks process (spawn_workers tasks n s)
  | 0, s, inv => inv
  | n + 1, s, inv => by
    refine spawn_workers_inv tasks process n _ ?_
    unfold claim_index
    by_cases hc : s.cursor < tasks.length
    · rw [if_pos hc]
      dsimp only
      refine ⟨show s.cursor + 1 ≤ tasks.length by omega, inv.results_ok, ?_, ?_, ?_, ?_⟩
      · intro k hk
        rcases Nat.lt_succ_iff_lt_or_eq.mp hk with hk | hk
        · rcases inv.claimed_covered k hk with h | h | ⟨msg, h⟩
          · exact Or.inl h
          · exact Or.inr (Or.inl (List.mem_append_left _ h))
          · exact Or.inr (Or.inr ⟨msg, List.mem_append_left _ h⟩)
        · subst hk
          exact Or.inr (Or.inl (List.mem_append_right _ (by simp)))
      · intro hd
        rcases List.mem_append.mp hd with h | h
        · exact absurd (inv.done_cursor h) (by omega)
        · simp at h
      · intro msg hmem
        rcases List.mem_append.mp hmem with h | h
        · exact inv.failed_origin msg h
        · simp at h
      · intro k hmem
        rcases List.mem_append.mp hmem with h | h
        · exact Nat.lt_succ_of_lt (inv.waiting_lt k h)
        · simp at h
          show k < s.cursor + 1
          omega
    · rw [if_neg hc]
      dsimp only
      have hcur : s.cursor = tasks.length := by
        have := inv.cursor_le
        omega
      refine ⟨inv.cursor_le, inv.results_ok, ?_, fun _ => hcur, ?_, ?_⟩
      · intro k hk
        rcases inv.claimed_covered k hk with h | h | ⟨msg, h⟩
        · exact Or.inl h
        · exact Or.inr (Or.inl (List.mem_append_left _ h))
        · exact Or.inr (Or.inr ⟨msg, List.mem_append_left _ h⟩)
      · intro msg hmem
        rcases List.mem_append.mp hmem with h | h
        · exact inv.failed_origin msg h
        · simp at h
      · intro k hmem
        rcases List.mem_append.mp hmem with h | h
        · exact inv.waiting_lt k h
        · simp at h

/-- The freshly initialized pool satisfies the invariant. -/
lemma init_pool_inv {T R : Type} (tasks : List T) (process : T → Except String R)
    (workers_count : Nat) : PoolInv tasks process (init_pool (R := R) tasks workers_count) := by
  refine spawn_workers_inv tasks process workers_count _ ?_
  refine ⟨Nat.zero_le _, ?_, ?_, ?_, ?_, ?_⟩
  · intro k v h
    cases h
  · intro k h
    have h0 : k < 0 := h
    omega
  · intro h
    simp at h
  · intro msg h
    simp at h
  · intro k h
    simp at h

/-- One scheduler step preserves the pool invariant. -/
lemma pool_step_inv {T R : Type} {tasks : List T} {process : T → Except String R}
    {s : PoolSt R} (inv : PoolInv tasks process s) (w : Nat) :
    PoolInv tasks process (pool_step tasks process s w) := by
  unfold pool_step
  cases hget : s.workers.get? w with
  | none => exact inv
  | some ws =>
    cases ws with
    | done => exact inv
    | failed msg => exact inv
    | waiting k =>
      have hkmem : WorkerSt.waiting (R := R) k ∈ s.workers := List.get?_mem hget
      have hk_lt : k < s.cursor := inv.waiting_lt k hkmem
      have hk_len : k < tasks.length := lt_of_lt_of_le hk_lt inv.cursor_le
      have hw_len : w < s.workers.length := (List.get?_eq_some.mp hget).1
      dsimp only
      cases htask : tasks.get? k with
      | none =>
        exact absurd hk_len (not_lt.mpr (List.get?_eq_none.mp htask))
      | some t =>
        dsimp only
        cases hproc : process t with
        | error msg =>
          dsimp only
          refine ⟨inv.cursor_le, inv.results_ok, ?_, ?_, ?_, ?_⟩
          · intro j hj
            exact Or.inr (Or.inr ⟨msg, mem_set_self (by simpa using hw_len) _⟩)
          · intro hd
            rcases List.mem_or_eq_of_mem_set hd with h | h
            · exact inv.done_cursor h
            · simp at h
          · intro msg2 hmem
            rcases List.mem_or_eq_of_mem_set hmem with h | h
            · exact inv.failed_origin msg2 h
            · obtain rfl : msg2 = msg := by injection h
              exact ⟨k, t, htask, hproc⟩
          · intro j hmem
            rcases List.mem_or_eq_of_mem_set hmem with h | h
            · exact inv.waiting_lt j h
            · simp at h
        | ok v =>
          dsimp only
          unfold claim_index
          dsimp only
          by_cases hc : s.cursor < tasks.length
          · rw [if_pos hc]
            dsimp only
            refine ⟨show s.cursor + 1 ≤ tasks.length by omega, ?_, ?_, ?_, ?_, ?_⟩
            · intro j v2 hj
              dsimp only at hj
              by_cases hjk : j = k
              · subst hjk
                rw [if_pos rfl] at hj
                obtain rfl : v = v2 := by injection hj
                exact ⟨t, htask, hproc⟩
              · rw [if_neg hjk] at hj
                exact inv.results_ok j v2 hj
            · intro j hj
              have hj2 : j < s.cursor + 1 := hj
              by_cases hjk : j = k
              · subst hjk
                exact Or.inl (by simp)
              · rcases Nat.lt_succ_iff_lt_or_eq.mp hj2 with hj3 | hj3
                · rcases inv.claimed_covered j hj3 with h | h | ⟨msg, h⟩
                  · exact Or.inl (by simpa [hjk] using h)
                  · refine Or.inr (Or.inl (mem_set_of_get?_ne _ h ?_))
                    rw [hget]
                    intro hcontra
                    exact hjk (by injection hcontra with h2; injection h2 with h3; omega)
                  · refine Or.inr (Or.inr ⟨msg, mem_set_of_get?_ne _ h ?_⟩)
                    rw [hget]
                    intro hcontra
                    exact WorkerSt.noConfusion (Option.some.inj hcontra)
                · subst hj3
                  exact Or.inr (Or.inl (mem_set_self (by simpa using hw_len) _))
            · intro hd
              rcases List.mem_or_eq_of_mem_set hd with h | h
              · exact absurd (inv.done_cursor h) (by omega)
              · simp at h
            · intro msg hmem
              rcases List.mem_or_eq_of_mem_set hmem with h | h
              · exact inv.failed_origin msg h
              · simp at h
            · intro j hmem
              rcases List.mem_or_eq_of_mem_set hmem with h | h
              · exact Nat.lt_succ_of_lt (inv.waiting_lt j h)
              · obtain rfl : j = s.cursor := by injection h
                exact Nat.lt_succ_self _
          · rw [if_neg hc]
            dsimp only
            have hcur : s.cursor = tasks.length := by
              have := inv.cursor_le
              omega
            refine ⟨inv.cursor_le, ?_, ?_, fun _ => hcur, ?_, ?_⟩
            · intro j v2 hj
              dsimp only at hj
              by_cases hjk : j = k
              · subst hjk
                rw [if_pos rfl] at hj
                obtain rfl : v = v2 := by injection hj
                exact ⟨t, htask, hproc⟩
              · rw [if_neg hjk] at hj
                exact inv.results_ok j v2 hj
            · intro j hj
              have hj2 : j < s.cursor := hj
              by_cases hjk : j = k
              · subst hjk
                exact Or.inl (by simp)
              · rcases inv.claimed_covered j hj2 with h | h | ⟨msg, h⟩
                · exact Or.inl (by simpa [hjk] using h)
                · refine Or.inr (Or.inl (mem_set_of_get?_ne _ h ?_))
                  rw [hget]
                  intro hcontra
                  exact hjk (by injection hcontra with h2; injection h2 with h3; omega)
                · exact Or.inr (Or.inr ⟨msg, mem_set_of_get?_ne _ h (by
                    rw [hget]
                    intro hcontra
                    exact WorkerSt.noConfusion (Option.some.inj hcontra))⟩)
            · intro msg hmem
              rcases List.mem_or_eq_of_mem_set hmem with h | h
              · exact inv.failed_origin msg h
              · simp at h
            · intro j hmem
              rcases List.mem_or_eq_of_mem_set hmem with h | h
              · exact inv.waiting_lt j h
              · simp at h

/-- Running any schedule preserves the pool invariant. -/
lemma pool_run_inv {T R : Type} {tasks : List T} {process : T → Except String R}
    (schedule : List Nat) :
    ∀ {s : PoolSt R}, PoolInv tasks process s →
      PoolInv tasks process (pool_run tasks process s schedule) := by
  induction schedule with
  | nil => intro s inv; exact inv
  | cons c cs ih =>
    intro s inv
    exact ih (pool_step_inv inv c)

/-- A scheduler step never changes the number of workers. -/
lemma pool_step_workers_length {T R : Type} (tasks : List T)
    (process : T → Except String R) (s : PoolSt R) (w : Nat) :
    (pool_step tasks process s w).workers.length = s.workers.length := by
  unfold pool_step claim_index
  cases hget : s.workers.get? w with
  | none => rfl
  | some ws =>
    cases ws with
    | done => rfl
    | failed msg => rfl
    | waiting k =>
      dsimp only
      cases htask : tasks.get? k with
      | none => simp [List.length_set]
      | some t =>
        dsimp only
        cases hproc : process t with
        | error msg => simp [List.length_set]
        | ok v =>
          dsimp only
          by_cases hc : s.cursor < tasks.length
          · rw [if_pos hc]
            simp [List.length_set]
          · rw [if_neg hc]
            simp [List.length_set]

/-- Running a schedule never changes the number of workers. -/
lemma pool_run_workers_length {T R : Type} (tasks : List T)
    (process : T → Except String R) (schedule : List Nat) :
    ∀ s : PoolSt R, (pool_run tasks process s schedule).workers.length = s.workers.length := by
  induction schedule with
  | nil => intro s; rfl
  | cons c cs ih =>
    intro s
    calc (pool_run tasks process (pool_step tasks process s c) cs).workers.length
        = (pool_step tasks process s c).workers.length := ih _
      _ = s.workers.length := pool_step_workers_length tasks process s c

/-- The spawn loop adds exactly one worker per iteration. -/
lemma spawn_workers_length {T R : Type} (tasks : List T) :
    ∀ (n : Nat) (s : PoolSt R),
      (spawn_workers tasks n s).workers.length = s.workers.length + n
  | 0, s => rfl
  | n + 1, s => by
    unfold spawn_workers
    rw [spawn_workers_length tasks n]
    rw [claim_index_workers]
    simp
    omega

/-- `init_pool` spawns exactly `workers_count` workers. -/
lemma init_pool_workers_length {T R : Type} (tasks : List T) (workers_count : Nat) :
    (init_pool (R := R) tasks workers_count).workers.length = workers_count := by
  unfold init_pool
  rw [spawn_workers_length]
  simp

/-- In a finished pool no worker is waiting. -/
lemma finished_no_waiting {R : Type} {s : PoolSt R} (hfin : pool_finished s = true) :
    ∀ k, WorkerSt.waiting (R := R) k ∉ s.workers := by
  intro k hk
  have := List.all_eq_true.mp hfin _ hk
  simp at this

/-- `first_failure` finds nothing exactly when no worker failed. -/
lemma first_failure_eq_none_iff {R : Type} (ws : List (WorkerSt R)) :
    first_failure ws = none ↔ ∀ msg, WorkerSt.failed (R := R) msg ∉ ws := by
  induction ws with
  | nil => simp [first_failure]
  | cons a t ih =>
    cases a with
    | waiting k =>
      simp only [first_failure, ih]
      constructor
      · intro h msg hmem
        rcases List.mem_cons.mp hmem with h2 | h2
        · cases h2
        · exact h msg h2
      · intro h msg hmem
        exact h msg (List.mem_cons_of_mem _ hmem)
    | done =>
      simp only [first_failure, ih]
      constructor
      · intro h msg hmem
        rcases List.mem_cons.mp hmem with h2 | h2
        · cases h2
        · exact h msg h2
      · intro h msg hmem
        exact h msg (List.mem_cons_of_mem _ hmem)
    | failed msg =>
      simp only [first_failure]
      constructor
      · intro h
        cases h
      · intro h
        exact absurd (List.mem_cons_self _ _) (h msg)

/-- In a finished, failure-free pool with at least one worker, every
worker is `done` and the cursor has reached the end of the task list. -/
lemma finished_cursor_eq {T R : Type} {tasks : List T} {process : T → Except String R}
    {s : PoolSt R} (inv : PoolInv tasks process s) (hfin : pool_finished s = true)
    (hnofail : ∀ msg, WorkerSt.failed (R := R) msg ∉ s.workers)
    (hne : s.workers ≠ []) : s.cursor = tasks.length := by
  obtain ⟨ws, hws⟩ := List.exists_mem_of_ne_nil _ hne
  have hdone : ws = WorkerSt.done := by
    cases ws with
    | waiting k => exact absurd hws (finished_no_waiting hfin k)
    | done => rfl
    | failed msg => exact absurd hws (hnofail msg)
  subst hdone
  exact inv.done_cursor hws

/-- C6: for every task list, every worker count `W ≥ 1` and every mapper
that succeeds on all tasks, and every scheduler interleaving that lets all
worker promises settle, `execute_async` returns the results in input
index order — entry `i` is the result of `process tasks[i]` — regardless
of the completion order chosen by the scheduler; the empty task list
yields the empty result list. -/
theorem C6_indexed_results {T R : Type} (tasks : List T)
    (process : T → Except String R) (workers_count : Nat) (schedule : List Nat)
    (hW : 1 ≤ workers_count)
    (hok : ∀ t ∈ tasks, ∃ v, process t = .ok v)
    (hfin : pool_finished (pool_run tasks process (init_pool tasks workers_count) schedule)
      = true) :
    execute_async tasks process workers_count schedule =
      .ok (tasks.map fun t => (process t).toOption) := by
  set s := pool_run tasks process (init_pool tasks workers_count) schedule with hs
  have inv : PoolInv tasks process s :=
    pool_run_inv schedule (init_pool_inv tasks process workers_count)
  have hnofail : ∀ msg, WorkerSt.failed (R := R) msg ∉ s.workers := by
    intro msg hmem
    obtain ⟨k, t, hk, herr⟩ := inv.failed_origin msg hmem
    obtain ⟨v, hv⟩ := hok t (List.get?_mem hk)
    rw [hv] at herr
    cases herr
  have hlen : s.workers.length = workers_count := by
    rw [hs, pool_run_workers_length, init_pool_workers_length]
  have hne : s.workers ≠ [] := by
    intro h
    rw [h] at hlen
    simp at hlen
    omega
  have hcur : s.cursor = tasks.length := finished_cursor_eq inv hfin hnofail hne
  have hres : ∀ k t, tasks.get? k = some t → s.results k = (process t).toOption := by
    intro k t ht
    have hklen : k < tasks.length := (List.get?_eq_some.mp ht).1
    rcases inv.claimed_covered k (by omega) with h | h | ⟨msg, h⟩
    · obtain ⟨v, hv⟩ := Option.isSome_iff_exists.mp h
      obtain ⟨t2, ht2, hp2⟩ := inv.results_ok k v hv
      rw [ht] at ht2
      obtain rfl : t = t2 := by injection ht2
      rw [hv, hp2]
      rfl
    · exact absurd h (finished_no_waiting hfin k)
    · exact absurd h (hnofail msg)
  unfold execute_async
  dsimp only
  rw [← hs, (first_failure_eq_none_iff s.workers).mpr hnofail]
  dsimp only
  congr 1
  refine List.ext_get? ?_
  intro i
  rw [List.get?_map, List.get?_map]
  by_cases hi : i < tasks.length
  · rw [List.get?_range hi]
    obtain ⟨t, ht⟩ : ∃ t, tasks.get? i = some t := by
      cases h : tasks.get? i with
      | none => exact absurd hi (not_lt.mpr (List.get?_eq_none.mp h))
      | some t => exact ⟨t, rfl⟩
    rw [ht]
    simp [hres i t ht]
  · rw [List.get?_eq_none.mpr (by simpa using not_lt.mp hi),
      List.get?_eq_none.mpr (not_lt.mp hi)]
    rfl

/-- Witness for C6: tasks `[1,2,3,4,5]`, mapper `x ↦ x*x`, two workers,
under a schedule where task index 1 completes before task index 0. -/
theorem C6_indexed_results_witness :
    execute_async [1, 2, 3, 4, 5] (fun x => .ok (x * x)) 2 [1, 0, 1, 0, 1] =
      .ok ([1, 2, 3, 4, 5].map fun t => (Except.ok (ε := String) (t * t)).toOption) :=
  C6_indexed_results [1, 2, 3, 4, 5] (fun x => .ok (x * x)) 2 [1, 0, 1, 0, 1]
    (by decide) (fun t _ => ⟨t * t, rfl⟩) (by decide)

/-- C7: with at least one worker, if the mapper fails on some task of the
list, then — under every scheduler interleaving that settles all worker
promises — the whole `execute_async` call fails: it returns an error, not
a (partial or complete) result sequence. -/
theorem C7_single_failure_aborts_batch {T R : Type} (tasks : List T)
    (process : T → Except String R) (workers_count : Nat) (schedule : List Nat)
    (hW : 1 ≤ workers_count)
    (hbad : ∃ t ∈ tasks, ∃ msg, process t = .error msg)
    (hfin : pool_finished (pool_run tasks process (init_pool tasks workers_count) schedule)
      = true) :
    ∃ msg, execute_async tasks process workers_count schedule = .error msg := by
  set s := pool_run tasks process (init_pool tasks workers_count) schedule with hs
  have inv : PoolInv tasks process s :=
    pool_run_inv schedule (init_pool_inv tasks process workers_count)
  have hexists : first_failure s.workers ≠ none := by
    intro hnone
    have hnofail := (first_failure_eq_none_iff s.workers).mp hnone
    have hlen : s.workers.length = workers_count := by
      rw [hs, pool_run_workers_length, init_pool_workers_length]
    have hne : s.workers ≠ [] := by
      intro h
      rw [h] at hlen
      simp at hlen
      omega
    have hcur : s.cursor = tasks.length := finished_cursor_eq inv hfin hnofail hne
    obtain ⟨t, htmem, msg, herr⟩ := hbad
    obtain ⟨k, hk⟩ := List.mem_iff_get?.mp htmem
    have hklen : k < tasks.length := (List.get?_eq_some.mp hk).1
    rcases inv.claimed_covered k (by omega) with h | h | ⟨m, h⟩
    · obtain ⟨v, hv⟩ := Option.isSome_iff_exists.mp h
      obtain ⟨t2, ht2, hp2⟩ := inv.results_ok k v hv
      rw [hk] at ht2
      obtain rfl : t = t2 := by injection ht2
      rw [herr] at hp2
      cases hp2
    · exact absurd h (finished_no_waiting hfin k)
    · exact absurd h (hnofail m)
  obtain ⟨msg, hmsg⟩ := Option.ne_none_iff_exists.mp hexists
  refine ⟨msg, ?_⟩
  unfold execute_async
  dsimp only
  rw [← hs, ← hmsg]

/-- Witness for C7: one worker, mapper failing on the middle task; the
call returns an error. -/
theorem C7_single_failure_aborts_batch_witness :
    ∃ msg, execute_async [1, 2, 3]
      (fun x => if x = 2 then .error "boom" else .ok x) 1 [0, 0, 0] = .error msg :=
  C7_single_failure_aborts_batch [1, 2, 3]
    (fun x => if x = 2 then .error "boom" else .ok x) 1 [0, 0, 0]
    (by decide) ⟨2, by decide, "boom", rfl⟩ (by decide)

/-- A pool with no workers is inert: every scheduler step is a no-op. -/
lemma pool_run_no_workers {T R : Type} (tasks : List T) (process : T → Except String R)
    (schedule : List Nat) :
    ∀ s : PoolSt R, s.workers = [] → pool_run tasks process s schedule = s := by
  induction schedule with
  | nil => intro s _; rfl
  | cons c cs ih =>
    intro s hw
    have hstep : pool_step tasks process s c = s := by
      unfold pool_step
      rw [hw]
      rfl
    show pool_run tasks process (pool_step tasks process s c) cs = s
    rw [hstep]
    exact ih s hw

/-- C10: with `workers_count = 0` (outside the documented `W ≥ 1`)
`execute_async` neither hangs nor throws: no worker is spawned, the
mapper is never invoked, and the call returns a list of the same length
as the task list whose every entry is `undefined` (here `none`). -/
theorem C10_zero_workers_undefined {T R : Type} (tasks : List T)
    (process : T → Except String R) (schedule : List Nat) (hne : tasks ≠ []) :
    execute_async tasks process 0 schedule = .ok (List.replicate tasks.length none) ∧
    (pool_run tasks process (init_pool tasks 0) schedule).calls = 0 := by
  have hrun : pool_run tasks process (init_pool (R := R) tasks 0) schedule =
      init_pool tasks 0 :=
    pool_run_no_workers tasks process schedule _ rfl
  constructor
  · unfold execute_async
    rw [hrun]
    show Except.ok ((List.range tasks.length).map fun _ => none) = _
    rw [List.map_const']
    simp
  · rw [hrun]
    rfl

/-- Witness for C10: three tasks, zero workers: all-`undefined` output of
length 3 and zero mapper invocations. -/
theorem C10_zero_workers_undefined_witness :
    execute_async ([1, 2, 3] : List Nat) (fun x => .ok (x * x)) 0 [0, 1, 2] =
      .ok (List.replicate ([1, 2, 3] : List Nat).length none) ∧
    (pool_run ([1, 2, 3] : List Nat) (fun x => .ok (x * x))
      (init_pool [1, 2, 3] 0) [0, 1, 2]).calls = 0 :=
  C10_zero_workers_undefined [1, 2, 3] (fun x => .ok (x * x)) [0, 1, 2] (by decide)

/-!
The deterministic result encoder (src/unnamed/part_001):
`deep_clone_and_sort` recursively clones a value with object keys sorted,
and `stable_json_stringify` feeds the clone to `JSON.stringify`. JSON-like
runtime values are embedded as `Jsonish`; a value whose prototype carries
a `toJSON` hook is embedded as `hooked r` where `r` is the hook's result
(the source dispatches on `'toJSON' in obj`). `Array.prototype.sort`
(stable per ES2019) is modelled as `List.insertionSort`, a stable sort.
The `localeCompare` comparator is a total preorder that ECMA-262 requires
to treat canonically equivalent strings as identical: distinct keys such
as `"á"` (U+00E1) and `"á"` (U+0061 U+0301) compare equal. It is
modelled as comparison of NFC canonical forms: `canon` composes the
combining sequences occurring in this development, and two keys tie
exactly when their canonical forms coincide.
-/

/-- JSON-like runtime values seen by the encoder. -/
inductive Jsonish where
  | null
  | bool (b : Bool)
  | num (n : Int)
  | str (s : String)
  | arr (xs : List Jsonish)
  | obj (fields : List (String × Jsonish))
  | hooked (toJSON : Jsonish)

/-- Unicode NFC composition, restricted to the combining sequences used
here: `'a'` followed by combining acute (U+0301) composes to `'\u00e1'`
(U+00E1). -/
def canon_chars : List Char → List Char
  | [] => []
  | 'a' :: c :: rest =>
    if c = '\u0301' then '\u00e1' :: canon_chars rest
    else 'a' :: canon_chars (c :: rest)
  | c :: rest => c :: canon_chars rest

/-- Canonical (NFC) form of a string; `localeCompare` must not
distinguish a string from its canonical form. -/
def canon (s : String) : String := String.mk (canon_chars s.data)

/-- Key comparison used by `.sort(([key_a], [key_b]) => key_a.localeCompare(key_b))`:
a total preorder that ties on canonically equivalent keys. -/
def key_le (p q : String × Jsonish) : Prop := canon p.1 ≤ canon q.1

instance : DecidableRel key_le :=
  fun p q => inferInstanceAs (Decidable (canon p.1 ≤ canon q.1))

instance : IsTotal (String × Jsonish) key_le :=
  ⟨fun a b => le_total (canon a.1) (canon b.1)⟩

instance : IsTrans (String × Jsonish) key_le := ⟨fun _ _ _ hab hbc => le_trans hab hbc⟩

/-- Strict comparison of canonical key forms; antisymmetric (vacuously)
on pairs. -/
def key_lt (p q : String × Jsonish) : Prop := canon p.1 < canon q.1

instance : IsAntisymm (String × Jsonish) key_lt :=
  ⟨fun _ _ hab hba => absurd hba (lt_asymm hab)⟩

/-- `Object.entries(obj).sort((a, b) => a[0].localeCompare(b[0]))`. -/
def sort_fields (fields : List (String × Jsonish)) : List (String × Jsonish) :=
  List.insertionSort key_le fields

lemma sizeOf_snd_lt_of_mem_sort_fields {p : String × Jsonish}
    {fields : List (String × Jsonish)} (h : p ∈ sort_fields fields) :
    sizeOf p.2 < 1 + sizeOf fields := by
  have hm : p ∈ fields := (List.perm_insertionSort key_le fields).mem_iff.mp h
  have h1 : sizeOf p < sizeOf fields := List.sizeOf_lt_of_mem hm
  have h2 : sizeOf p.2 < sizeOf p := by
    obtain ⟨a, b⟩ := p
    simp [Prod.mk.sizeOf_spec]
  omega

/-- Shallow embedding of `deep_clone_and_sort` (src/unnamed/part_001):
primitives are returned as-is, arrays are cloned elementwise preserving
order, a value with a `toJSON` hook is replaced by the clone of the hook's
result, and an object is rebuilt from its entries sorted by key with each
value cloned. -/
def deep_clone_and_sort : Jsonish → Jsonish
  | .null => .null
  | .bool b => .bool b
  | .num n => .num n
  | .str s => .str s
  | .arr xs => .arr (xs.attach.map (fun x => deep_clone_and_sort x.val))
  | .hooked r => deep_clone_and_sort r
  | .obj fields => .obj ((sort_fields fields).attach.map
      (fun p => (p.val.1, deep_clone_and_sort p.val.2)))
decreasing_by
  · have := List.sizeOf_lt_of_mem x.property
    simp [Jsonish.arr.sizeOf_spec]
    omega
  · simp [Jsonish.hooked.sizeOf_spec]
  · have := sizeOf_snd_lt_of_mem_sort_fields p.property
    simp [Jsonish.obj.sizeOf_spec]
    omega

lemma clone_null : deep_clone_and_sort .null = .null := by
  rw [deep_clone_and_sort]

lemma clone_bool (b : Bool) : deep_clone_and_sort (.bool b) = .bool b := by
  rw [deep_clone_and_sort]

lemma clone_num (n : Int) : deep_clone_and_sort (.num n) = .num n := by
  rw [deep_clone_and_sort]

lemma clone_str (s : String) : deep_clone_and_sort (.str s) = .str s := by
  rw [deep_clone_and_sort]

lemma clone_hooked (r : Jsonish) :
    deep_clone_and_sort (.hooked r) = deep_clone_and_sort r := by
  rw [deep_clone_and_sort]

lemma clone_arr (xs : List Jsonish) :
    deep_clone_and_sort (.arr xs) = .arr (xs.map deep_clone_and_sort) := by
  rw [deep_clone_and_sort]
  congr 1
  exact List.attach_map_val xs deep_clone_and_sort

lemma clone_obj (fields : List (String × Jsonish)) :
    deep_clone_and_sort (.obj fields) =
      .obj ((sort_fields fields).map (fun p => (p.1, deep_clone_and_sort p.2))) := by
  rw [deep_clone_and_sort]
  congr 1
  exact List.attach_map_val (sort_fields fields) (fun p => (p.1, deep_clone_and_sort p.2))

/-- Indentation used by `JSON.stringify(v, null, 2)`. -/
def spaces (n : Nat) : String := String.mk (List.replicate n ' ')

/-- Model of `JSON.stringify` on `Jsonish` values: `pretty` selects the
2-space-indented form `JSON.stringify(v, null, 2)`, otherwise the compact
form; `ind` is the current indentation level; a `toJSON` hook is applied
before serializing. -/
def json_render (pretty : Bool) (ind : Nat) : Jsonish → String
  | .null => "null"
  | .bool true => "true"
  | .bool false => "false"
  | .num n => toString n
  | .str s => "\"" ++ s ++ "\""
  | .arr xs =>
    if xs.isEmpty then "[]"
    else if pretty then
      "[\n" ++ String.intercalate (",\n")
          (xs.attach.map (fun x => spaces (ind + 2) ++ json_render pretty (ind + 2) x.val)) ++
        "\n" ++ spaces ind ++ "]"
    else
      "[" ++ String.intercalate (",")
          (xs.attach.map (fun x => json_render pretty ind x.val)) ++ "]"
  | .obj fields =>
    if fields.isEmpty then "\x7b\x7d"
    else if pretty then
      "\x7b\n" ++ String.intercalate (",\n")
          (fields.attach.map (fun p =>
            spaces (ind + 2) ++ "\"" ++ p.val.1 ++ "\": " ++
              json_render pretty (ind + 2) p.val.2)) ++
        "\n" ++ spaces ind ++ "\x7d"
    else
      "\x7b" ++ String.intercalate (",")
          (fields.attach.map (fun p =>
            "\"" ++ p.val.1 ++ "\":" ++ json_render pretty ind p.val.2)) ++ "\x7d"
  | .hooked r => json_render pretty ind r
termination_by j => sizeOf j
decreasing_by
  · have := List.sizeOf_lt_of_mem x.property
    simp [Jsonish.arr.sizeOf_spec]
    omega
  · have := List.sizeOf_lt_of_mem x.property
    simp [Jsonish.arr.sizeOf_spec]
    omega
  · have h1 := List.sizeOf_lt_of_mem p.property
    have h2 : sizeOf p.val.2 < sizeOf p.val := by
      obtain ⟨⟨a, b⟩, hp⟩ := p
      simp [Prod.mk.sizeOf_spec]
    simp only [Jsonish.obj.sizeOf_spec]
    omega
  · have h1 := List.sizeOf_lt_of_mem p.property
    have h2 : sizeOf p.val.2 < sizeOf p.val := by
      obtain ⟨⟨a, b⟩, hp⟩ := p
      simp [Prod.mk.sizeOf_spec]
    simp only [Jsonish.obj.sizeOf_spec]
    omega
  · simp [Jsonish.hooked.sizeOf_spec]

/-- Shallow embedding of `stable_json_stringify` (src/unnamed/part_001):
`JSON.stringify(deep_clone_and_sort(obj), null, 2)` when `pretty`, else
`JSON.stringify(deep_clone_and_sort(obj))`; the source defaults `pretty`
to `true`. -/
def stable_json_stringify (obj : Jsonish) (pretty : Bool) : String :=
  if pretty then json_render true 0 (deep_clone_and_sort obj)
  else json_render false 0 (deep_clone_and_sort obj)

/-- Association-list lookup, modelling JS property access on the objects
the encoder sees (JS object keys are unique). -/
def js_lookup (key : String) : List (String × Jsonish) → Option Jsonish
  | [] => none
  | (k, v) :: rest => if k = key then some v else js_lookup key rest

/-- Structural equality up to object key ordering: identical primitives,
arrays of the same length related elementwise in order, objects with the
same key set (keys unique, as in JS objects) and related values key by
key, and `toJSON`-hooked values related by their hook results. -/
inductive StructEq : Jsonish → Jsonish → Prop where
  | null : StructEq .null .null
  | bool (b : Bool) : StructEq (.bool b) (.bool b)
  | num (n : Int) : StructEq (.num n) (.num n)
  | str (s : String) : StructEq (.str s) (.str s)
  | arr {xs ys : List Jsonish} : xs.length = ys.length →
      (∀ i x y, xs.get? i = some x → ys.get? i = some y → StructEq x y) →
      StructEq (.arr xs) (.arr ys)
  | obj {fa fb : List (String × Jsonish)} :
      (fa.map Prod.fst).Nodup →
      (fa.map Prod.fst).Perm (fb.map Prod.fst) →
      (∀ key va vb, js_lookup key fa = some va → js_lookup key fb = some vb →
        StructEq va vb) →
      StructEq (.obj fa) (.obj fb)
  | hooked {a b : Jsonish} : StructEq a b → StructEq (.hooked a) (.hooked b)

/-- The keys of every object in the value are pairwise canonically
inequivalent: `localeCompare` never ties on two distinct keys of the same
object. Two canonically equivalent distinct keys make the source's stable
sort depend on insertion order (see the C8 counterexample). -/
inductive CanonKeys : Jsonish → Prop where
  | null : CanonKeys .null
  | bool (b : Bool) : CanonKeys (.bool b)
  | num (n : Int) : CanonKeys (.num n)
  | str (s : String) : CanonKeys (.str s)
  | arr {xs : List Jsonish} : (∀ i x, xs.get? i = some x → CanonKeys x) →
      CanonKeys (.arr xs)
  | obj {fields : List (String × Jsonish)} :
      ((fields.map Prod.fst).map canon).Nodup →
      (∀ key v, js_lookup key fields = some v → CanonKeys v) →
      CanonKeys (.obj fields)
  | hooked {r : Jsonish} : CanonKeys r → CanonKeys (.hooked r)

lemma js_lookup_map_snd (f : Jsonish → Jsonish) (key : String) :
    ∀ l : List (String × Jsonish),
      js_lookup key (l.map (fun p => (p.1, f p.2))) = (js_lookup key l).map f
  | [] => rfl
  | (k, v) :: rest => by
    by_cases h : k = key
    · simp [js_lookup, h]
    · simp only [List.map_cons, js_lookup, h, if_false]
      exact js_lookup_map_snd f key rest

lemma js_lookup_eq_none_iff (key : String) :
    ∀ l : List (String × Jsonish),
      js_lookup key l = none ↔ key ∉ l.map Prod.fst
  | [] => by simp [js_lookup]
  | (k, v) :: rest => by
    by_cases h : k = key
    · simp [js_lookup, h]
    · simp only [js_lookup, h, if_false, List.map_cons, List.mem_cons]
      rw [js_lookup_eq_none_iff key rest]
      constructor
      · intro hnone hmem
        rcases hmem with h2 | h2
        · exact h h2.symm
        · exact hnone h2
      · intro hnot hmem
        exact hnot (Or.inr hmem)

lemma js_lookup_eq_some_iff_mem (key : String) (v : Jsonish) :
    ∀ l : List (String × Jsonish), (l.map Prod.fst).Nodup →
      (js_lookup key l = some v ↔ (key, v) ∈ l)
  | [] , _ => by simp [js_lookup]
  | (k, w) :: rest, hnodup => by
    have hnodup_rest : (rest.map Prod.fst).Nodup := by
      simp only [List.map_cons, List.nodup_cons] at hnodup
      exact hnodup.2
    have hk_notin : k ∉ rest.map Prod.fst := by
      simp only [List.map_cons, List.nodup_cons] at hnodup
      exact hnodup.1
    by_cases h : k = key
    · subst h
      simp only [js_lookup, if_pos rfl, List.mem_cons]
      constructor
      · intro hv
        exact Or.inl (by
          obtain rfl : w = v := by injection hv
          rfl)
      · intro hmem
        rcases hmem with h2 | h2
        · obtain ⟨rfl, rfl⟩ := Prod.mk.injEq .. ▸ And.intro (congrArg Prod.fst h2).symm
            (congrArg Prod.snd h2).symm
          rfl
        · exact absurd (List.mem_map_of_mem Prod.fst h2) hk_notin
    · simp only [js_lookup, h, if_false, List.mem_cons]
      rw [js_lookup_eq_some_iff_mem key v rest hnodup_rest]
      constructor
      · exact Or.inr
      · intro hmem
        rcases hmem with h2 | h2
        · exact absurd (congrArg Prod.fst h2).symm h
        · exact h2

/-- Under unique keys, lookup is invariant under permutation. -/
lemma js_lookup_perm {l₁ l₂ : List (String × Jsonish)} (hperm : l₁.Perm l₂)
    (hnodup : (l₁.map Prod.fst).Nodup) (key : String) :
    js_lookup key l₁ = js_lookup key l₂ := by
  have hnodup₂ : (l₂.map Prod.fst).Nodup := (hperm.map Prod.fst).nodup_iff.mp hnodup
  cases h : js_lookup key l₁ with
  | some v =>
    have hmem : (key, v) ∈ l₁ := (js_lookup_eq_some_iff_mem key v l₁ hnodup).mp h
    exact ((js_lookup_eq_some_iff_mem key v l₂ hnodup₂).mpr (hperm.mem_iff.mp hmem)).symm
  | none =>
    have hnot : key ∉ l₁.map Prod.fst := (js_lookup_eq_none_iff key l₁).mp h
    have hnot₂ : key ∉ l₂.map Prod.fst := fun hmem =>
      hnot ((hperm.map Prod.fst).mem_iff.mpr hmem)
    exact ((js_lookup_eq_none_iff key l₂).mpr hnot₂).symm

lemma sort_fields_perm (l : List (String × Jsonish)) : (sort_fields l).Perm l :=
  List.perm_insertionSort key_le l

lemma sort_fields_sorted (l : List (String × Jsonish)) :
    List.Sorted key_le (sort_fields l) :=
  List.sorted_insertionSort key_le l

/-- A key-sorted list whose canonical key forms are pairwise distinct is
strictly key-sorted. -/
lemma sorted_strict {l : List (String × Jsonish)} (hs : List.Sorted key_le l)
    (hn : ((l.map Prod.fst).map canon).Nodup) : List.Pairwise key_lt l := by
  have h1 : List.Pairwise (fun a b : String => canon a ≠ canon b) (l.map Prod.fst) :=
    List.pairwise_map.mp hn
  have hne : List.Pairwise (fun p q : String × Jsonish => canon p.1 ≠ canon q.1) l :=
    (@List.pairwise_map (String × Jsonish) String Prod.fst
      (fun a b => canon a ≠ canon b) l).mp h1
  exact (hs.and hne).imp (fun h => lt_of_le_of_ne h.1 h.2)

/-- First keys of a strictly key-sorted cons do not reappear in the tail. -/
lemma head_key_notin_tail {k : String} {v : Jsonish} {t : List (String × Jsonish)}
    (h : List.Pairwise key_lt ((k, v) :: t)) : k ∉ t.map Prod.fst := by
  intro hmem
  obtain ⟨p, hp, hpk⟩ := List.mem_map.mp hmem
  have hlt : canon k < canon p.1 := (List.pairwise_cons.mp h).1 p hp
  rw [hpk] at hlt
  exact lt_irrefl (canon k) hlt

/-- Two strictly key-sorted association lists with the same lookup
function are equal. -/
lemma strict_sorted_lookup_ext :
    ∀ {l₁ l₂ : List (String × Jsonish)}, List.Pairwise key_lt l₁ →
      List.Pairwise key_lt l₂ → (∀ key, js_lookup key l₁ = js_lookup key l₂) →
      l₁ = l₂
  | [], [], _, _, _ => rfl
  | [], (k₂, v₂) :: t₂, _, _, hlook => by
    have := hlook k₂
    simp [js_lookup] at this
  | (k₁, v₁) :: t₁, [], _, _, hlook => by
    have := hlook k₁
    simp [js_lookup] at this
  | (k₁, v₁) :: t₁, (k₂, v₂) :: t₂, hs₁, hs₂, hlook => by
    have hk : k₁ = k₂ := by
      by_contra hne
      have h1 : js_lookup k₁ ((k₂, v₂) :: t₂) = some v₁ := by
        rw [← hlook k₁]
        simp [js_lookup]
      have h2 : js_lookup k₂ ((k₁, v₁) :: t₁) = some v₂ := by
        rw [hlook k₂]
        simp [js_lookup]
      have hmem1 : k₁ ∈ t₂.map Prod.fst := by
        rw [js_lookup] at h1
        rw [if_neg (fun h => hne h.symm)] at h1
        by_contra hnot
        rw [(js_lookup_eq_none_iff k₁ t₂).mpr hnot] at h1
        cases h1
      have hmem2 : k₂ ∈ t₁.map Prod.fst := by
        rw [js_lookup] at h2
        rw [if_neg hne] at h2
        by_contra hnot
        rw [(js_lookup_eq_none_iff k₂ t₁).mpr hnot] at h2
        cases h2
      obtain ⟨p, hp, hpk⟩ := List.mem_map.mp hmem1
      have hlt1 : canon k₂ < canon k₁ := by
        have hx : canon k₂ < canon p.1 := (List.pairwise_cons.mp hs₂).1 p hp
        rw [hpk] at hx
        exact hx
      obtain ⟨q, hq, hqk⟩ := List.mem_map.mp hmem2
      have hlt2 : canon k₁ < canon k₂ := by
        have hx : canon k₁ < canon q.1 := (List.pairwise_cons.mp hs₁).1 q hq
        rw [hqk] at hx
        exact hx
      exact lt_asymm hlt1 hlt2
    subst hk
    have hv : v₁ = v₂ := by
      have := hlook k₁
      simp [js_lookup] at this
      exact this
    subst hv
    have htail : t₁ = t₂ := by
      refine strict_sorted_lookup_ext (List.pairwise_cons.mp hs₁).2
        (List.pairwise_cons.mp hs₂).2 ?_
      intro key
      by_cases hkey : k₁ = key
      · subst hkey
        rw [(js_lookup_eq_none_iff k₁ t₁).mpr (head_key_notin_tail hs₁),
          (js_lookup_eq_none_iff k₁ t₂).mpr (head_key_notin_tail hs₂)]
      · have := hlook key
        rw [js_lookup, js_lookup, if_neg hkey, if_neg hkey] at this
        exact this
    rw [htail]

/-- Structurally equal values (up to object key ordering) whose object
keys are pairwise canonically inequivalent have identical deep-sorted
clones. -/
lemma clone_congr {a b : Jsonish} (h : StructEq a b) :
    CanonKeys a → deep_clone_and_sort a = deep_clone_and_sort b := by
  induction h with
  | null => intro _; rfl
  | bool b => intro _; rfl
  | num n => intro _; rfl
  | str s => intro _; rfl
  | @arr xs ys hlen hrel ih =>
    intro hc
    obtain ⟨hcv⟩ : ∃ hcv : ∀ i x, xs.get? i = some x → CanonKeys x, True := by
      cases hc with
      | arr hcv => exact ⟨hcv, trivial⟩
    rw [clone_arr, clone_arr]
    congr 1
    refine List.ext_get? ?_
    intro i
    rw [List.get?_map, List.get?_map]
    cases hx : xs.get? i with
    | none =>
      have hy : ys.get? i = none := by
        rw [List.get?_eq_none] at hx ⊢
        omega
      rw [hy]
    | some x =>
      obtain ⟨y, hy⟩ : ∃ y, ys.get? i = some y := by
        cases hyy : ys.get? i with
        | none =>
          rw [List.get?_eq_none] at hyy
          have := (List.get?_eq_some.mp hx).1
          omega
        | some y => exact ⟨y, rfl⟩
      rw [hy]
      simp only [Option.map_some']
      rw [ih i x y hx hy (hcv i x hx)]
  | @obj fa fb hnodup hperm hlook ih =>
    intro hc
    obtain ⟨hcnodup, hcv⟩ :
        ∃ hp : ((fa.map Prod.fst).map canon).Nodup,
          ∀ key v, js_lookup key fa = some v → CanonKeys v := by
      cases hc with
      | obj hcnodup hcv => exact ⟨hcnodup, hcv⟩
    rw [clone_obj, clone_obj]
    congr 1
    have hnodupB : (fb.map Prod.fst).Nodup := hperm.nodup_iff.mp hnodup
    have hcnodupB : ((fb.map Prod.fst).map canon).Nodup :=
      (hperm.map canon).nodup_iff.mp hcnodup
    have hA_keys : ((sort_fields fa).map Prod.fst).Nodup :=
      ((sort_fields_perm fa).map Prod.fst).nodup_iff.mpr hnodup
    have hB_keys : ((sort_fields fb).map Prod.fst).Nodup :=
      ((sort_fields_perm fb).map Prod.fst).nodup_iff.mpr hnodupB
    have hcA_keys : (((sort_fields fa).map Prod.fst).map canon).Nodup :=
      (((sort_fields_perm fa).map Prod.fst).map canon).nodup_iff.mpr hcnodup
    have hcB_keys : (((sort_fields fb).map Prod.fst).map canon).Nodup :=
      (((sort_fields_perm fb).map Prod.fst).map canon).nodup_iff.mpr hcnodupB
    have hstrictA : List.Pairwise key_lt (sort_fields fa) :=
      sorted_strict (sort_fields_sorted fa) hcA_keys
    have hstrictB : List.Pairwise key_lt (sort_fields fb) :=
      sorted_strict (sort_fields_sorted fb) hcB_keys
    have hstrictA2 : List.Pairwise key_lt
        ((sort_fields fa).map (fun p => (p.1, deep_clone_and_sort p.2))) :=
      List.pairwise_map.mpr (hstrictA.imp (fun hpq => hpq))
    have hstrictB2 : List.Pairwise key_lt
        ((sort_fields fb).map (fun p => (p.1, deep_clone_and_sort p.2))) :=
      List.pairwise_map.mpr (hstrictB.imp (fun hpq => hpq))
    refine strict_sorted_lookup_ext hstrictA2 hstrictB2 ?_
    intro key
    rw [js_lookup_map_snd, js_lookup_map_snd,
      js_lookup_perm (sort_fields_perm fa) hA_keys key,
      js_lookup_perm (sort_fields_perm fb) hB_keys key]
    cases hfa : js_lookup key fa with
    | none =>
      cases hfb : js_lookup key fb with
      | none => rfl
      | some vb =>
        have h1 : key ∉ fa.map Prod.fst := (js_lookup_eq_none_iff key fa).mp hfa
        have h2 : key ∈ fb.map Prod.fst := by
          by_contra hnot
          rw [(js_lookup_eq_none_iff key fb).mpr hnot] at hfb
          cases hfb
        exact absurd (hperm.mem_iff.mpr h2) h1
    | some va =>
      cases hfb : js_lookup key fb with
      | none =>
        have h1 : key ∈ fa.map Prod.fst := by
          by_contra hnot
          rw [(js_lookup_eq_none_iff key fa).mpr hnot] at hfa
          cases hfa
        have h2 : key ∉ fb.map Prod.fst := (js_lookup_eq_none_iff key fb).mp hfb
        exact absurd (hperm.mem_iff.mp h1) h2
      | some vb =>
        simp only [Option.map_some']
        rw [ih key va vb hfa hfb (hcv key va hfa)]
  | @hooked a b hab ih =>
    intro hc
    obtain ⟨hr⟩ : ∃ hr : CanonKeys a, True := by
      cases hc with
      | hooked hr => exact ⟨hr, trivial⟩
    rw [clone_hooked, clone_hooked]
    exact ih hr

/-- Attach-free restatement of `json_render` on numbers. -/
lemma render_num (pretty : Bool) (ind : Nat) (n : Int) :
    json_render pretty ind (.num n) = toString n := by
  rw [json_render]

/-- Attach-free restatement of `json_render` on objects. -/
lemma render_obj (pretty : Bool) (ind : Nat) (fields : List (String × Jsonish)) :
    json_render pretty ind (.obj fields) =
      (if fields.isEmpty then "\x7b\x7d"
      else if pretty then
        "\x7b\n" ++ String.intercalate (",\n")
            (fields.map (fun p =>
              spaces (ind + 2) ++ "\"" ++ p.1 ++ "\": " ++
                json_render pretty (ind + 2) p.2)) ++
          "\n" ++ spaces ind ++ "\x7d"
      else
        "\x7b" ++ String.intercalate (",")
            (fields.map (fun p =>
              "\"" ++ p.1 ++ "\":" ++ json_render pretty ind p.2)) ++ "\x7d") := by
  rw [json_render]
  cases hfe : fields.isEmpty
  · cases pretty
    · simp only [Bool.false_eq_true, if_false]
      rw [List.attach_map_val fields
        (fun p => "\"" ++ p.1 ++ "\":" ++ json_render false ind p.2)]
    · simp only [if_true]
      rw [List.attach_map_val fields
        (fun p => spaces (ind + 2) ++ "\"" ++ p.1 ++ "\": " ++
          json_render true (ind + 2) p.2)]
  · simp

/-- JS runtime values as seen by `ensure_error`. -/
inductive JsValue where
  | undef
  | jsNull
  | bool (b : Bool)
  | num (n : Int)
  | str (s : String)
  | errObj (message : String) (stack : Option String)
  | plainObj
deriving DecidableEq, Repr

/-- JS truthiness of the embedded values. -/
def js_truthy : JsValue → Bool
  | .undef => false
  | .jsNull => false
  | .bool b => b
  | .num n => n != 0
  | .str s => s != ""
  | .errObj _ _ => true
  | .plainObj => true

/-- JS string conversion `'' + v` of the embedded values. -/
def js_to_string : JsValue → String
  | .undef => "undefined"
  | .jsNull => "null"
  | .bool true => "true"
  | .bool false => "false"
  | .num n => toString n
  | .str s => s
  | .errObj msg _ => if msg = "" then "Error" else "Error: " ++ msg
  | .plainObj => "[object Object]"

/-- Shallow embedding of `ensure_error` (src/unnamed/part_001). For an
`Error` instance: if its message is falsy, assign the default message to
the argument in place, then return the argument itself; otherwise return
the argument unchanged. For any other value: return
`new Error('' + (error || default_message))`, a fresh object, leaving the
argument untouched. The first component is the returned `Error`, the
second the argument's post-call state. -/
def ensure_error (error : JsValue) (default_message : String) : JsValue × JsValue :=
  match error with
  | .errObj msg stack =>
    let msg2 := if msg = "" then default_message else msg
    (.errObj msg2 stack, .errObj msg2 stack)
  | _ =>
    (.errObj ("" ++ (if js_truthy error then js_to_string error else default_message))
      none, error)

/-- Counterexample to C9 as stated: on an `Error` with empty message,
`ensure_error` assigns the default message to its argument in place, so
the call does not leave its argument unmodified. -/
theorem C9_purity_counterexample :
    (ensure_error (.errObj "" (some "trace")) "Unknown error").2 =
      .errObj "Unknown error" (some "trace") ∧
    (ensure_error (.errObj "" (some "trace")) "Unknown error").2 ≠
      .errObj "" (some "trace") := by decide

/-- C9 (amended): `ensure_error` has no side effect except in one case:
when the argument is an `Error` whose message is empty, it overwrites that
error's message with the default message in place (the returned `Error`
is the argument itself). On every error-shaped input it preserves the
stack and substitutes the default message exactly when the message is
empty. -/
theorem C9_ensure_error_frame (v : JsValue) (d : String) :
    ((ensure_error v d).2 = v ∨
      ∃ st, v = .errObj "" st ∧ (ensure_error v d).2 = .errObj d st) ∧
    (∀ msg st, v = .errObj msg st →
      (ensure_error v d).1 = .errObj (if msg = "" then d else msg) st ∧
      (ensure_error v d).1 = (ensure_error v d).2) := by
  constructor
  · cases v with
    | errObj msg st =>
      by_cases h : msg = ""
      · subst h
        exact Or.inr ⟨st, rfl, by simp [ensure_error]⟩
      · exact Or.inl (by simp [ensure_error, h])
    | undef => exact Or.inl rfl
    | jsNull => exact Or.inl rfl
    | bool b => exact Or.inl rfl
    | num n => exact Or.inl rfl
    | str s => exact Or.inl rfl
    | plainObj => exact Or.inl rfl
  · intro msg st hv
    subst hv
    by_cases h : msg = "" <;> simp [ensure_error, h]

/-- Witness for C9 (amended) at a concrete `Error` with a non-empty
message and a stack: nothing is mutated and the stack is preserved. -/
theorem C9_ensure_error_frame_witness :
    ((ensure_error (.errObj "boom" (some "trace")) "Unknown error").2 =
        .errObj "boom" (some "trace") ∨
      ∃ st, JsValue.errObj "boom" (some "trace") = .errObj "" st ∧
        (ensure_error (.errObj "boom" (some "trace")) "Unknown error").2 =
          .errObj "Unknown error" st) ∧
    (∀ msg st, JsValue.errObj "boom" (some "trace") = .errObj msg st →
      (ensure_error (.errObj "boom" (some "trace")) "Unknown error").1 =
        .errObj (if msg = "" then "Unknown error" else msg) st ∧
      (ensure_error (.errObj "boom" (some "trace")) "Unknown error").1 =
        (ensure_error (.errObj "boom" (some "trace")) "Unknown error").2) :=
  C9_ensure_error_frame (.errObj "boom" (some "trace")) "Unknown error"
